import Mathlib

/-!
# Verification of the Asynchronous Policy Inference Server (Custom-LeKiwi)

Shallow embedding of `src/lerobot/async_inference/policy_server.py`:
the observation inbox, the admission discipline (`_enqueue_observation`,
`_obs_sanity_checks`), chunk timing (`_time_action_chunk`), the server
state machine (`Ready`, `_reset_server`, `SendPolicyInstructions`,
`SendObservations`, `GetActions`), and the RTC flow-matching denoise loop
of `_get_action_chunk_with_rtc`.

Timestamps and wall-clock readings are modelled as rationals; tensors of
actions as lists of rationals; the similarity predicate
`observations_similar` (defined in `helpers.py`, outside this snapshot) is
an abstract boolean parameter.
-/

namespace PolicyServer

/-- An action vector, one control tick's command. -/
abbrev Action := List ℚ

/-- `TimedObservation`: timestep, timestamp, must_go flag, opaque payload
(the payload only matters through the similarity predicate, so it is an
abstract identifier). -/
structure TimedObservation where
  timestep : ℕ
  timestamp : ℚ
  must_go : Bool
  payload : ℕ
  deriving DecidableEq, Repr

/-- `TimedAction`: a timestamped, timestepped action. -/
structure TimedAction where
  timestamp : ℚ
  timestep : ℕ
  action : Action
  deriving DecidableEq, Repr

/-- The four prefix-attention schedules of `RTCConfig`. -/
inductive PrefixAttentionSchedule
  | exp | linear | const | zero
  deriving DecidableEq, Repr

/-- `RTCConfig` (from `configuration_rtc.py`, outside this snapshot; fields
as used by `policy_server.py` and described by the spec). -/
structure RTCConfig where
  enabled : Bool
  execution_horizon : ℕ
  max_guidance_weight : ℚ
  prefix_attention_schedule : PrefixAttentionSchedule
  deriving DecidableEq, Repr

/-- Modelled from the spec: `ActionQueue` state (`action_queue.py` is not in
the snapshot; the server only constructs fresh queues, reads
`get_left_over`/`get_action_index` and calls `merge`).  A fresh queue has
`committed_index = 0`, empty `pending` and no `leftover`. -/
structure ActionQueue where
  committed_index : ℕ
  pending : List Action
  leftover : Option (List Action)
  deriving DecidableEq, Repr

/-- `ActionQueue(config)`: the freshly constructed queue. -/
def ActionQueue.fresh : ActionQueue :=
  { committed_index := 0, pending := [], leftover := none }

/-- `RemotePolicyConfig` as consumed by `SendPolicyInstructions` (fields the
server reads). -/
structure RemotePolicyConfig where
  policy_type : String
  pretrained_name_or_path : String
  actions_per_chunk : ℕ
  device : String
  rtc_config : Option RTCConfig
  deriving DecidableEq, Repr

/-- The server's mutable state (`PolicyServer.__init__` fields that the
control flow reads or writes). -/
structure ServerState where
  shutdownSet : Bool
  obsQueue : Option TimedObservation
  predicted : Finset ℕ
  lastProcessedObs : Option TimedObservation
  device : Option String
  policyType : Option String
  actionsPerChunk : Option ℕ
  rtcConfig : Option RTCConfig
  rtcProcessorLive : Bool
  rtcActionQueue : Option ActionQueue
  lastInferenceStartTime : Option ℚ
  deriving DecidableEq

/-- `PolicyServer.__init__`: shutdown clear, empty depth-1 inbox, empty
predicted set, nothing processed or configured. -/
def ServerState.init : ServerState :=
  { shutdownSet := false
    obsQueue := none
    predicted := ∅
    lastProcessedObs := none
    device := none
    policyType := none
    actionsPerChunk := none
    rtcConfig := none
    rtcProcessorLive := false
    rtcActionQueue := none
    lastInferenceStartTime := none }

/-- `_time_action_chunk(t_0, action_chunk, i_0)`: the i-th action of the
chunk is stamped `t_0 + i * environment_dt` / `i_0 + i`. -/
def timeActionChunk (environment_dt : ℚ) (t0 : ℚ) (chunk : List Action) (i0 : ℕ) :
    List TimedAction :=
  chunk.enum.map fun p =>
    { timestamp := t0 + p.1 * environment_dt, timestep := i0 + p.1, action := p.2 }

/-- `_obs_sanity_checks(obs, previous_obs)`: reject if the timestep was
already predicted, reject if similar to the last processed observation,
accept otherwise.  `sim` abstracts `observations_similar` from
`helpers.py`. -/
def obsSanityChecks (sim : TimedObservation → TimedObservation → Bool)
    (predicted : Finset ℕ) (obs previous_obs : TimedObservation) : Bool :=
  if obs.timestep ∈ predicted then false
  else if sim obs previous_obs then false
  else true

/-- The admission condition of `_enqueue_observation`:
`obs.must_go or last_processed_obs is None or _obs_sanity_checks(...)`. -/
def enqueueAdmits (sim : TimedObservation → TimedObservation → Bool)
    (s : ServerState) (obs : TimedObservation) : Bool :=
  obs.must_go ||
    (match s.lastProcessedObs with
     | none => true
     | some previous => obsSanityChecks sim s.predicted obs previous)

/-- `_enqueue_observation`: when admitted, the depth-1 inbox is drained with
`get_nowait` if full and the new observation is stored (`put` therefore sees
a non-full queue and returns at once); when rejected, nothing changes.
Returns the boolean the method returns together with the new state. -/
def enqueueObservation (sim : TimedObservation → TimedObservation → Bool)
    (s : ServerState) (obs : TimedObservation) : Bool × ServerState :=
  if enqueueAdmits sim s obs then
    (true, { s with obsQueue := some obs })
  else
    (false, s)

/-- `_reset_server`: sets the shutdown event, replaces the inbox with a
fresh empty queue, clears `_predicted_timesteps`, replaces the RTC action
queue with a fresh `ActionQueue(rtc_config)` when one exists, and clears
`last_inference_start_time`.  (`last_processed_obs` is not touched.) -/
def resetServer (s : ServerState) : ServerState :=
  { s with
    shutdownSet := true
    obsQueue := none
    predicted := ∅
    rtcActionQueue := s.rtcActionQueue.map fun _ => ActionQueue.fresh
    lastInferenceStartTime := none }

/-- `Ready`: `_reset_server()` followed by `shutdown_event.clear()`. -/
def ready (s : ServerState) : ServerState :=
  { resetServer s with shutdownSet := false }

/-- `SendPolicyInstructions`: when the shutdown event is set (`not
self.running`) it logs a warning and returns `Empty` at once; otherwise it
deserializes the specs, raises on an unsupported policy type, stores the
RTC config, device, policy type and `actions_per_chunk`, loads the model
and processors (external effects, not part of this state), and initializes
`RTCProcessor`/`ActionQueue` exactly when RTC is enabled.  `supported`
abbreviates `SUPPORTED_POLICIES` (`constants.py`). -/
def sendPolicyInstructions (supported : List String) (s : ServerState)
    (policy_specs : RemotePolicyConfig) : ServerState × Except String Unit :=
  if s.shutdownSet then
    (s, Except.ok ())
  else if policy_specs.policy_type ∈ supported then
    let rtcOn : Bool := match policy_specs.rtc_config with
      | some c => c.enabled
      | none => false
    ({ s with
        rtcConfig := policy_specs.rtc_config
        device := some policy_specs.device
        policyType := some policy_specs.policy_type
        actionsPerChunk := some policy_specs.actions_per_chunk
        rtcProcessorLive := rtcOn
        rtcActionQueue := if rtcOn then some ActionQueue.fresh else none },
      Except.ok ())
  else
    (s, Except.error "unsupported policy type")

/-- Outcome of one `_predict_action_chunk` attempt.  `ok` carries the
postprocessed action rows; `errEarly` is a failure before
`last_processed_obs` is assigned (observation preparation or
preprocessing), `errLate` a failure after it (inference, postprocessing or
serialization). -/
inductive InferenceOutcome
  | ok (rows : List Action)
  | errEarly
  | errLate
  deriving DecidableEq

/-- `GetActions`: pops the inbox (the `Empty` timeout fires exactly when
the slot is vacant, yielding an empty response), records the observation's
timestep in `_predicted_timesteps` before inference, runs
`_predict_action_chunk` (which first sets `last_inference_start_time`, and
on reaching step 2 sets `last_processed_obs`), and returns the timed chunk;
any exception is caught and an empty response returned.  `now` is the
wall-clock reading at the start of `_predict_action_chunk`; the in-place
`rtc_action_queue.merge` on success does not affect any field read here.
The response is `some chunk` for `Actions(data=...)` and `none` for
`Empty()`. -/
def getActionsStep (environment_dt : ℚ) (s : ServerState) (now : ℚ)
    (outcome : InferenceOutcome) : ServerState × Option (List TimedAction) :=
  match s.obsQueue with
  | none => (s, none)
  | some obs =>
    let s1 := { s with
      obsQueue := none
      predicted := insert obs.timestep s.predicted
      lastInferenceStartTime := some now }
    match outcome with
    | InferenceOutcome.ok rows =>
        ({ s1 with lastProcessedObs := some obs },
          some (timeActionChunk environment_dt obs.timestamp rows obs.timestep))
    | InferenceOutcome.errEarly => (s1, none)
    | InferenceOutcome.errLate => ({ s1 with lastProcessedObs := some obs }, none)

/-- Client-visible events of one server session. -/
inductive Event
  | sendObs (obs : TimedObservation)
  | getActions (now : ℚ) (outcome : InferenceOutcome)
  | readyCall
  deriving DecidableEq

/-- A run of the server together with the log of admitted (enqueued)
timesteps and of timesteps handed to the inference engine
(`_predict_action_chunk`). -/
structure Trace where
  state : ServerState
  enqueued : List ℕ
  inferred : List ℕ
  deriving DecidableEq

/-- One event step of the server, extending the logs. -/
def stepEvent (sim : TimedObservation → TimedObservation → Bool)
    (environment_dt : ℚ) (tr : Trace) (e : Event) : Trace :=
  match e with
  | Event.sendObs obs =>
    let r := enqueueObservation sim tr.state obs
    { tr with
      state := r.2
      enqueued := if r.1 then tr.enqueued ++ [obs.timestep] else tr.enqueued }
  | Event.getActions now outcome =>
    let inf := match tr.state.obsQueue with
      | some o => [o.timestep]
      | none => []
    { tr with
      state := (getActionsStep environment_dt tr.state now outcome).1
      inferred := tr.inferred ++ inf }
  | Event.readyCall => { tr with state := ready tr.state }

/-- The run of a list of events from the freshly constructed server. -/
def run (sim : TimedObservation → TimedObservation → Bool)
    (environment_dt : ℚ) (events : List Event) : Trace :=
  events.foldl (stepEvent sim environment_dt)
    { state := ServerState.init, enqueued := [], inferred := [] }

/-- Python `int()` applied to a rational: truncation toward zero. -/
def pyInt (q : ℚ) : ℤ :=
  if 0 ≤ q then ⌊q⌋ else ⌈q⌉

/-- `ActionQueue.get_left_over()`: the stored leftover suffix. -/
def ActionQueue.get_left_over (q : ActionQueue) : Option (List Action) :=
  q.leftover

/-- The `inference_delay` computed once in `_get_action_chunk_with_rtc`
before the denoise loop: `int((now − last_inference_start_time) /
environment_dt)` when a start time is recorded, else `0`. -/
def entryInferenceDelay (environment_dt : ℚ) (lastStart : Option ℚ)
    (now : ℚ) : ℤ :=
  match lastStart with
  | some s => pyInt ((now - s) / environment_dt)
  | none => 0

/-- One Euler update `x ← x + dt · v` on a chunk of action vectors. -/
def eulerStep (dt : ℚ) (x v : List Action) : List Action :=
  List.zipWith (fun a b => List.zipWith (fun p q => p + dt * q) a b) x v

/-- The flow-matching denoise loop of `_get_action_chunk_with_rtc`:
`x = noise; t = 1; while t ≥ −dt/2: v = step(x, t); x ← x + dt·v; t ← t + dt`.
`v` abstracts the (RTC-wrapped) velocity field.  Runs on fuel and returns
the final state together with the number of iterations performed, or
`none` when the fuel runs out before the guard fails. -/
def flowLoop (dt : ℚ) (v : List Action → ℚ → List Action) :
    ℕ → List Action → ℚ → Option (List Action × ℕ)
  | 0, x, t => if -dt / 2 ≤ t then none else some (x, 0)
  | fuel + 1, x, t =>
    if -dt / 2 ≤ t then
      match flowLoop dt v fuel (eulerStep dt x (v x t)) (t + dt) with
      | some (y, k) => some (y, k + 1)
      | none => none
    else some (x, 0)

/-- The value the loop body computes after `k` iterations from `(x, t)`. -/
def loopIterate (dt : ℚ) (v : List Action → ℚ → List Action) :
    ℕ → List Action → ℚ → List Action
  | 0, x, _ => x
  | k + 1, x, t => loopIterate dt v k (eulerStep dt x (v x t)) (t + dt)

/-- After the loop, `actions = x_t` is truncated to the policy's declared
action dimension (`actions[:, :, :original_action_dim]`) and sliced to the
first `actions_per_chunk` rows (`actions[:, :actions_per_chunk, :]`); the
batch dimension is dropped here. -/
def finalizeChunk (actions : List Action)
    (original_action_dim actions_per_chunk : ℕ) : List Action :=
  ((actions.map fun a => a.take original_action_dim).take actions_per_chunk)

/-- The argument triples `(prev_chunk_left_over, inference_delay, time)`
passed to `rtc_processor.denoise_step` at successive inner steps. -/
structure RTCCall where
  leftoverArg : Option (List Action)
  delayArg : ℤ
  timeArg : ℚ
  deriving DecidableEq, Repr

/-- The denoise loop of `_get_action_chunk_with_rtc`, instrumented to log
the `(leftover, delay, time)` arguments of each `denoise_step` call: both
`prev_chunk_left_over` and `inference_delay` are bound once, before the
loop, and every iteration passes those same values. -/
def rtcCallLoop (dt : ℚ) (leftover : Option (List Action)) (delay : ℤ) :
    ℕ → ℚ → List RTCCall
  | 0, _ => []
  | fuel + 1, t =>
    if -dt / 2 ≤ t then
      { leftoverArg := leftover, delayArg := delay, timeArg := t } ::
        rtcCallLoop dt leftover delay fuel (t + dt)
    else []

/-- The calls `_get_action_chunk_with_rtc` makes to
`rtc_processor.denoise_step`: leftover is `rtc_action_queue.get_left_over()`
read once before the loop; the delay is `entryInferenceDelay` computed once
at loop entry (`loopEntryNow` is the wall clock there); the loop starts at
`t = 1` with `dt = −1/num_steps`. -/
def rtcChunkCalls (num_steps : ℕ) (environment_dt : ℚ)
    (leftover : Option (List Action)) (lastStart : Option ℚ)
    (loopEntryNow : ℚ) : List RTCCall :=
  rtcCallLoop (-1 / num_steps) leftover
    (entryInferenceDelay environment_dt lastStart loopEntryNow)
    (num_steps + 1) 1

theorem timeActionChunk_length (dt t0 : ℚ) (chunk : List Action) (i0 : ℕ) :
    (timeActionChunk dt t0 chunk i0).length = chunk.length := by
  simp [timeActionChunk]

theorem timeActionChunk_get (dt t0 : ℚ) (chunk : List Action) (i0 i : ℕ)
    (h : i < (timeActionChunk dt t0 chunk i0).length) :
    ((timeActionChunk dt t0 chunk i0).get ⟨i, h⟩).timestamp = t0 + i * dt ∧
      ((timeActionChunk dt t0 chunk i0).get ⟨i, h⟩).timestep = i0 + i := by
  have hlen : i < chunk.length := by
    simpa [timeActionChunk] using h
  simp [timeActionChunk, List.get_eq_getElem, List.getElem_enum]

/-- Claim C1: a chunk returned by `GetActions` (built by
`_time_action_chunk` from the triggering observation's timestamp `t0` and
timestep `k0`) has `timestamp[i] = t0 + i·environment_dt` and
`timestep[i] = k0 + i`; consecutive actions differ by exactly
`environment_dt` in timestamp and exactly `1` in timestep. -/
theorem getActions_chunk_timing (dt now : ℚ) (s : ServerState)
    (obs : TimedObservation) (rows : List Action)
    (hq : s.obsQueue = some obs) :
    ∃ chunk, (getActionsStep dt s now (InferenceOutcome.ok rows)).2 = some chunk ∧
      chunk.length = rows.length ∧
      (∀ i, ∀ h : i < chunk.length,
        (chunk.get ⟨i, h⟩).timestamp = obs.timestamp + i * dt ∧
        (chunk.get ⟨i, h⟩).timestep = obs.timestep + i) ∧
      (∀ i, ∀ h : i + 1 < chunk.length,
        (chunk.get ⟨i + 1, h⟩).timestamp -
            (chunk.get ⟨i, Nat.lt_of_succ_lt h⟩).timestamp = dt ∧
        (chunk.get ⟨i + 1, h⟩).timestep -
            (chunk.get ⟨i, Nat.lt_of_succ_lt h⟩).timestep = 1) := by
  refine ⟨timeActionChunk dt obs.timestamp rows obs.timestep, ?_, ?_, ?_, ?_⟩
  · simp [getActionsStep, hq]
  · exact timeActionChunk_length dt obs.timestamp rows obs.timestep
  · intro i h
    exact timeActionChunk_get dt obs.timestamp rows obs.timestep i h
  · intro i h
    obtain ⟨ht1, hs1⟩ := timeActionChunk_get dt obs.timestamp rows obs.timestep (i + 1) h
    obtain ⟨ht0, hs0⟩ :=
      timeActionChunk_get dt obs.timestamp rows obs.timestep i (Nat.lt_of_succ_lt h)
    constructor
    · rw [ht1, ht0]
      push_cast
      ring
    · rw [hs1, hs0]
      omega

/-- Closed witness for claim C1's theorem: a server holding observation
`(timestep 7, timestamp 2)` and a successful inference of three rows. -/
theorem getActions_chunk_timing_witness :
    ({ ServerState.init with
        obsQueue := some ⟨7, 2, false, 0⟩ } : ServerState).obsQueue =
      some ⟨7, 2, false, 0⟩ ∧
    ∃ chunk,
      (getActionsStep (1/30)
          { ServerState.init with obsQueue := some ⟨7, 2, false, 0⟩ } 0
          (InferenceOutcome.ok [[1], [2], [3]])).2 = some chunk ∧
      chunk.length = ([[1], [2], [3]] : List Action).length ∧
      (∀ i, ∀ h : i < chunk.length,
        (chunk.get ⟨i, h⟩).timestamp = (2 : ℚ) + i * (1/30) ∧
        (chunk.get ⟨i, h⟩).timestep = 7 + i) ∧
      (∀ i, ∀ h : i + 1 < chunk.length,
        (chunk.get ⟨i + 1, h⟩).timestamp -
            (chunk.get ⟨i, Nat.lt_of_succ_lt h⟩).timestamp = 1/30 ∧
        (chunk.get ⟨i + 1, h⟩).timestep -
            (chunk.get ⟨i, Nat.lt_of_succ_lt h⟩).timestep = 1) :=
  ⟨rfl, getActions_chunk_timing (1/30) 0 _ ⟨7, 2, false, 0⟩ [[1], [2], [3]] rfl⟩

/-- Claim C2: `_enqueue_observation` admits an observation iff `must_go` is
set, or nothing has ever been processed, or its timestep is not in
`predicted_timesteps` and it is not similar to the last processed
observation; a rejected observation leaves the server unchanged, so it can
never reach the policy. -/
theorem enqueueObservation_admission
    (sim : TimedObservation → TimedObservation → Bool)
    (s : ServerState) (obs : TimedObservation) :
    ((enqueueObservation sim s obs).1 = true ↔
      obs.must_go = true ∨ s.lastProcessedObs = none ∨
        ∃ previous, s.lastProcessedObs = some previous ∧
          obs.timestep ∉ s.predicted ∧ sim obs previous = false) ∧
    ((enqueueObservation sim s obs).1 = false →
      enqueueObservation sim s obs = (false, s)) := by
  constructor
  · rcases hlast : s.lastProcessedObs with _ | previous
    · rcases hgo : obs.must_go <;>
        simp [enqueueObservation, enqueueAdmits, hlast, hgo]
    · rcases hgo : obs.must_go <;>
        by_cases hmem : obs.timestep ∈ s.predicted <;>
          rcases hsim : sim obs previous <;>
            simp [enqueueObservation, enqueueAdmits, obsSanityChecks,
              hlast, hgo, hmem, hsim]
  · intro hrej
    unfold enqueueObservation at hrej ⊢
    rcases h : enqueueAdmits sim s obs <;> simp [h] at hrej ⊢

/-- Claim C5: `Ready` empties the inbox, clears `predicted_timesteps`,
resets the RTC action queue (to a fresh `ActionQueue` when one existed),
clears the recorded inference start time, leaves the shutdown signal
cleared (rebound), and is idempotent: two consecutive calls produce the
very same state as one. -/
theorem ready_resets_and_idempotent (s : ServerState) :
    (ready s).obsQueue = none ∧
    (ready s).predicted = ∅ ∧
    (ready s).rtcActionQueue = s.rtcActionQueue.map (fun _ => ActionQueue.fresh) ∧
    (ready s).lastInferenceStartTime = none ∧
    (ready s).shutdownSet = false ∧
    ready (ready s) = ready s := by
  refine ⟨rfl, rfl, rfl, rfl, rfl, ?_⟩
  unfold ready resetServer
  rcases s.rtcActionQueue with _ | q <;> simp

/-- Claim C6: `GetActions` returns an empty response exactly when the inbox
yields no observation within the timeout or the inference attempt fails;
whenever an observation is popped (in particular in the error case), its
timestep is in `predicted_timesteps` afterwards, having been added before
inference started. -/
theorem getActions_empty_iff (dt : ℚ) (s : ServerState) (now : ℚ)
    (outcome : InferenceOutcome) :
    ((getActionsStep dt s now outcome).2 = none ↔
      s.obsQueue = none ∨ outcome = InferenceOutcome.errEarly ∨
        outcome = InferenceOutcome.errLate) ∧
    (∀ obs, s.obsQueue = some obs →
      obs.timestep ∈ (getActionsStep dt s now outcome).1.predicted) := by
  rcases hq : s.obsQueue with _ | obs <;> rcases outcome <;>
    simp [getActionsStep, hq]

/-- The number of observations the inbox holds. -/
def inboxSize (s : ServerState) : ℕ :=
  match s.obsQueue with
  | none => 0
  | some _ => 1

/-- Claim C7: the inbox holds at most one observation in every reachable
state; an admitted observation always ends up alone in the slot (any
occupant is discarded — freshest wins — and the `put` happens on a
non-full queue, so it returns immediately); a rejected observation changes
nothing. -/
theorem inbox_depth_one_freshest_wins
    (sim : TimedObservation → TimedObservation → Bool) (dt : ℚ)
    (s : ServerState) (obs : TimedObservation) (events : List Event) :
    ((enqueueObservation sim s obs).1 = true →
      (enqueueObservation sim s obs).2.obsQueue = some obs) ∧
    ((enqueueObservation sim s obs).1 = false →
      (enqueueObservation sim s obs).2 = s) ∧
    inboxSize (run sim dt events).state ≤ 1 := by
  refine ⟨?_, ?_, ?_⟩
  · intro hadm
    unfold enqueueObservation at hadm ⊢
    rcases h : enqueueAdmits sim s obs <;> simp [h] at hadm ⊢
  · intro hrej
    unfold enqueueObservation at hrej ⊢
    rcases h : enqueueAdmits sim s obs <;> simp [h] at hrej ⊢
  · rcases h : (run sim dt events).state.obsQueue <;> simp [inboxSize, h]

/-- Counterexample to claim C3 as stated: a `must_go` observation bypasses
the `predicted_timesteps` membership check, so timestep 5 is passed to the
inference engine twice in this four-event run. -/
theorem inferred_timesteps_can_repeat :
    (run (fun _ _ => true) 1
        [Event.sendObs ⟨5, 0, false, 0⟩,
         Event.getActions 0 (InferenceOutcome.ok []),
         Event.sendObs ⟨5, 0, true, 1⟩,
         Event.getActions 0 (InferenceOutcome.ok [])]).inferred = [5, 5] ∧
    ¬ (run (fun _ _ => true) 1
        [Event.sendObs ⟨5, 0, false, 0⟩,
         Event.getActions 0 (InferenceOutcome.ok []),
         Event.sendObs ⟨5, 0, true, 1⟩,
         Event.getActions 0 (InferenceOutcome.ok [])]).inferred.Nodup := by
  decide

/-- An event that cannot defeat timestep dedup: an observation without the
`must_go` override, an inference attempt that does not fail before
`last_processed_obs` is assigned, and no `Ready` reset. -/
def BenignEvent (e : Event) : Prop :=
  match e with
  | Event.sendObs obs => obs.must_go = false
  | Event.getActions _ outcome => outcome ≠ InferenceOutcome.errEarly
  | Event.readyCall => False

/-- The inductive invariant behind timestep dedup: inferred timesteps are
distinct and recorded in `predicted_timesteps`, the queued observation (if
any) has an unpredicted timestep, and before anything is processed the
predicted set is empty. -/
def NodupInv (tr : Trace) : Prop :=
  tr.inferred.Nodup ∧
  (∀ ts ∈ tr.inferred, ts ∈ tr.state.predicted) ∧
  (∀ o, tr.state.obsQueue = some o → o.timestep ∉ tr.state.predicted) ∧
  (tr.state.lastProcessedObs = none → tr.state.predicted = ∅)

theorem stepEvent_subset_preserved
    (sim : TimedObservation → TimedObservation → Bool) (dt : ℚ)
    (tr : Trace) (e : Event)
    (hq : ∀ o, tr.state.obsQueue = some o → o.timestep ∈ tr.enqueued)
    (hi : ∀ ts ∈ tr.inferred, ts ∈ tr.enqueued) :
    (∀ o, (stepEvent sim dt tr e).state.obsQueue = some o →
        o.timestep ∈ (stepEvent sim dt tr e).enqueued) ∧
    (∀ ts ∈ (stepEvent sim dt tr e).inferred,
        ts ∈ (stepEvent sim dt tr e).enqueued) := by
  cases e with
  | sendObs obs =>
    by_cases hadm : enqueueAdmits sim tr.state obs = true
    · constructor
      · intro o ho
        simp [stepEvent, enqueueObservation, hadm] at ho ⊢
        simp [← ho]
      · intro ts hts
        simp [stepEvent, enqueueObservation, hadm]
        exact Or.inl (hi ts hts)
    · simp only [Bool.not_eq_true] at hadm
      constructor
      · intro o ho
        simp [stepEvent, enqueueObservation, hadm] at ho ⊢
        exact hq o ho
      · intro ts hts
        simp [stepEvent, enqueueObservation, hadm] at hts ⊢
        exact hi ts hts
  | getActions now outcome =>
    rcases hqv : tr.state.obsQueue with _ | o
    · constructor
      · intro o ho
        simp [stepEvent, getActionsStep, hqv] at ho
      · intro ts hts
        simp [stepEvent, getActionsStep, hqv] at hts ⊢
        exact hi ts hts
    · constructor
      · intro o' ho'
        rcases outcome <;> simp [stepEvent, getActionsStep, hqv] at ho'
      · intro ts hts
        rcases outcome <;>
          · simp [stepEvent, getActionsStep, hqv] at hts ⊢
            rcases hts with hts | hts
            · exact hi ts hts
            · exact hts ▸ hq o hqv
  | readyCall =>
    constructor
    · intro o ho
      simp [stepEvent, ready, resetServer] at ho
    · intro ts hts
      simp [stepEvent] at hts ⊢
      exact hi ts hts

theorem foldl_subset_preserved
    (sim : TimedObservation → TimedObservation → Bool) (dt : ℚ) :
    ∀ (events : List Event) (tr : Trace),
      (∀ o, tr.state.obsQueue = some o → o.timestep ∈ tr.enqueued) →
      (∀ ts ∈ tr.inferred, ts ∈ tr.enqueued) →
      ∀ ts ∈ (events.foldl (stepEvent sim dt) tr).inferred,
        ts ∈ (events.foldl (stepEvent sim dt) tr).enqueued := by
  intro events
  induction events with
  | nil => intro tr _ hi; simpa using hi
  | cons e es ih =>
    intro tr hq hi
    simp only [List.foldl_cons]
    obtain ⟨hq', hi'⟩ := stepEvent_subset_preserved sim dt tr e hq hi
    exact ih (stepEvent sim dt tr e) hq' hi'

theorem stepEvent_nodupInv_preserved
    (sim : TimedObservation → TimedObservation → Bool) (dt : ℚ)
    (tr : Trace) (e : Event) (hb : BenignEvent e) (hInv : NodupInv tr) :
    NodupInv (stepEvent sim dt tr e) := by
  obtain ⟨h1, h2, h3, h4⟩ := hInv
  cases e with
  | sendObs obs =>
    have hgo : obs.must_go = false := hb
    by_cases hadm : enqueueAdmits sim tr.state obs = true
    · have hfresh : obs.timestep ∉ tr.state.predicted := by
        unfold enqueueAdmits at hadm
        rcases hlast : tr.state.lastProcessedObs with _ | previous
        · rw [h4 hlast]
          simp
        · rw [hlast, hgo] at hadm
          simp only [Bool.false_or] at hadm
          unfold obsSanityChecks at hadm
          by_cases hmem : obs.timestep ∈ tr.state.predicted
          · simp [hmem] at hadm
          · exact hmem
      refine ⟨h1, ?_, ?_, ?_⟩
      · intro ts hts
        simp [stepEvent, enqueueObservation, hadm] at hts ⊢
        exact h2 ts hts
      · intro o ho
        simp [stepEvent, enqueueObservation, hadm] at ho ⊢
        rw [← ho]
        exact hfresh
      · intro hlast'
        simp [stepEvent, enqueueObservation, hadm] at hlast' ⊢
        exact h4 hlast'
    · simp only [Bool.not_eq_true] at hadm
      have hsame : stepEvent sim dt tr (Event.sendObs obs) = tr := by
        simp [stepEvent, enqueueObservation, hadm]
      rw [hsame]
      exact ⟨h1, h2, h3, h4⟩
  | getActions now outcome =>
    rcases hqv : tr.state.obsQueue with _ | o
    · have hsame : stepEvent sim dt tr (Event.getActions now outcome) = tr := by
        simp [stepEvent, getActionsStep, hqv]
      rw [hsame]
      exact ⟨h1, h2, h3, h4⟩
    · have hnotin : o.timestep ∉ tr.inferred := fun hmem => h3 o hqv (h2 _ hmem)
      have hnodup' : (tr.inferred ++ [o.timestep]).Nodup := by
        rw [List.nodup_append]
        exact ⟨h1, List.nodup_singleton _, by
          intro x hx hx'
          simp only [List.mem_singleton] at hx'
          exact hnotin (hx' ▸ hx)⟩
      rcases outcome with rows | _ | _
      · refine ⟨?_, ?_, ?_, ?_⟩
        · simpa [stepEvent, hqv] using hnodup'
        · intro ts hts
          simp [stepEvent, getActionsStep, hqv] at hts ⊢
          rcases hts with hts | hts
          · exact Or.inr (h2 ts hts)
          · exact Or.inl hts
        · intro o' ho'
          simp [stepEvent, getActionsStep, hqv] at ho'
        · intro hlast'
          simp [stepEvent, getActionsStep, hqv] at hlast'
      · exact absurd rfl hb
      · refine ⟨?_, ?_, ?_, ?_⟩
        · simpa [stepEvent, hqv] using hnodup'
        · intro ts hts
          simp [stepEvent, getActionsStep, hqv] at hts ⊢
          rcases hts with hts | hts
          · exact Or.inr (h2 ts hts)
          · exact Or.inl hts
        · intro o' ho'
          simp [stepEvent, getActionsStep, hqv] at ho'
        · intro hlast'
          simp [stepEvent, getActionsStep, hqv] at hlast'
  | readyCall => exact absurd hb not_false

theorem foldl_nodupInv_preserved
    (sim : TimedObservation → TimedObservation → Bool) (dt : ℚ) :
    ∀ (events : List Event) (tr : Trace),
      (∀ e ∈ events, BenignEvent e) → NodupInv tr →
      NodupInv (events.foldl (stepEvent sim dt) tr) := by
  intro events
  induction events with
  | nil => intro tr _ hInv; simpa using hInv
  | cons e es ih =>
    intro tr hb hInv
    simp only [List.foldl_cons]
    exact ih (stepEvent sim dt tr e)
      (fun e' he' => hb e' (List.mem_cons_of_mem e he'))
      (stepEvent_nodupInv_preserved sim dt tr e (hb e (List.mem_cons_self e es)) hInv)

/-- Claim C3, amended: for any run from a fresh server, every timestep
passed to the inference engine was previously admitted to the inbox; and
provided no observation carries `must_go`, no inference fails before the
observation is recorded as last-processed, and no `Ready` reset occurs, no
timestep is passed to the engine twice.  (`must_go` bypasses the
`predicted_timesteps` membership check, and an early inference failure
leaves `last_processed_obs` unset so the same timestep can be re-admitted;
the original unconditional dedup statement is refuted by
the `must_go` run above.) -/
theorem run_inferred_subset_and_nodup
    (sim : TimedObservation → TimedObservation → Bool) (dt : ℚ)
    (events : List Event) :
    (∀ ts ∈ (run sim dt events).inferred, ts ∈ (run sim dt events).enqueued) ∧
    ((∀ e ∈ events, BenignEvent e) → (run sim dt events).inferred.Nodup) := by
  constructor
  · exact foldl_subset_preserved sim dt events
      { state := ServerState.init, enqueued := [], inferred := [] }
      (by intro o ho; simp [ServerState.init] at ho)
      (by intro ts hts; simp at hts)
  · intro hb
    have h := foldl_nodupInv_preserved sim dt events
      { state := ServerState.init, enqueued := [], inferred := [] } hb
      ⟨List.nodup_nil, by intro ts hts; simp at hts,
        by intro o ho; simp [ServerState.init] at ho, fun _ => rfl⟩
    exact h.1

/-- Counterexample to claim C4 as stated: after timestep 10 is processed, a
fresh observation with the smaller timestep 7 is still admitted (7 is not
in `predicted_timesteps` and the similarity check passes), so admitted
timesteps need not exceed the last processed one. -/
theorem enqueue_not_monotone :
    ((run (fun _ _ => false) 1
        [Event.sendObs ⟨10, 0, false, 0⟩,
         Event.getActions 0 (InferenceOutcome.ok [])]).state.lastProcessedObs =
      some ⟨10, 0, false, 0⟩) ∧
    (enqueueObservation (fun _ _ => false)
        (run (fun _ _ => false) 1
          [Event.sendObs ⟨10, 0, false, 0⟩,
           Event.getActions 0 (InferenceOutcome.ok [])]).state
        ⟨7, 0, false, 1⟩).1 = true ∧
    7 < 10 := by
  decide

/-- Claim C4, amended: an observation admitted without the `must_go`
override, at a point where some observation has been processed, has a
timestep outside `predicted_timesteps` (the timesteps already handed to the
engine) and is dissimilar from the last processed observation; the code
enforces no strict ordering against the last processed timestep. -/
theorem enqueue_admitted_not_predicted
    (sim : TimedObservation → TimedObservation → Bool)
    (s : ServerState) (obs previous : TimedObservation)
    (hgo : obs.must_go = false)
    (hlast : s.lastProcessedObs = some previous)
    (hadm : (enqueueObservation sim s obs).1 = true) :
    obs.timestep ∉ s.predicted ∧ sim obs previous = false := by
  unfold enqueueObservation at hadm
  by_cases h : enqueueAdmits sim s obs = true
  · unfold enqueueAdmits at h
    rw [hlast, hgo] at h
    simp only [Bool.false_or] at h
    unfold obsSanityChecks at h
    by_cases hmem : obs.timestep ∈ s.predicted
    · simp [hmem] at h
    · rcases hsim : sim obs previous
      · exact ⟨hmem, rfl⟩
      · simp [hmem, hsim] at h
  · simp [h] at hadm

/-- Closed witness for claim C4's amended theorem: a server that has
processed timestep 10 admits timestep 7, and indeed 7 is unpredicted and
dissimilar. -/
theorem enqueue_admitted_not_predicted_witness :
    (⟨7, 0, false, 1⟩ : TimedObservation).must_go = false ∧
    ({ ServerState.init with
        lastProcessedObs := some ⟨10, 0, false, 0⟩,
        predicted := {10} } : ServerState).lastProcessedObs =
      some ⟨10, 0, false, 0⟩ ∧
    (enqueueObservation (fun _ _ => false)
        { ServerState.init with
          lastProcessedObs := some ⟨10, 0, false, 0⟩, predicted := {10} }
        ⟨7, 0, false, 1⟩).1 = true ∧
    ((⟨7, 0, false, 1⟩ : TimedObservation).timestep ∉
        ({ ServerState.init with
            lastProcessedObs := some ⟨10, 0, false, 0⟩,
            predicted := {10} } : ServerState).predicted ∧
      (fun (_ _ : TimedObservation) => false) ⟨7, 0, false, 1⟩ ⟨10, 0, false, 0⟩ =
        false) :=
  ⟨rfl, rfl, by decide,
    enqueue_admitted_not_predicted (fun _ _ => false) _ ⟨7, 0, false, 1⟩
      ⟨10, 0, false, 0⟩ rfl rfl (by decide)⟩

/-- Claim C10: `SendPolicyInstructions` called while the shutdown event is
set returns `Empty` immediately and leaves the whole server state
untouched: no field changes, no model load, no RTC re-initialization. -/
theorem sendPolicyInstructions_not_running (supported : List String)
    (s : ServerState) (policy_specs : RemotePolicyConfig)
    (h : s.shutdownSet = true) :
    sendPolicyInstructions supported s policy_specs = (s, Except.ok ()) := by
  simp [sendPolicyInstructions, h]

/-- Closed witness for claim C10's theorem: a shut-down server ignores an
instruction payload entirely. -/
theorem sendPolicyInstructions_not_running_witness :
    ({ ServerState.init with shutdownSet := true } : ServerState).shutdownSet = true ∧
    sendPolicyInstructions ["act"] { ServerState.init with shutdownSet := true }
        ⟨"act", "artifact", 10, "cpu", none⟩ =
      ({ ServerState.init with shutdownSet := true }, Except.ok ()) :=
  ⟨rfl, sendPolicyInstructions_not_running ["act"] _ ⟨"act", "artifact", 10, "cpu", none⟩ rfl⟩

theorem flowLoop_count (n : ℕ) (hn : 0 < n)
    (v : List Action → ℚ → List Action) :
    ∀ k : ℕ, k ≤ n → ∀ fuel : ℕ, k ≤ fuel → ∀ x : List Action,
      flowLoop (-1 / (n : ℚ)) v fuel x ((k : ℚ) / n) =
        some (loopIterate (-1 / (n : ℚ)) v k x ((k : ℚ) / n), k) := by
  have hn' : (0 : ℚ) < n := by exact_mod_cast hn
  intro k
  induction k with
  | zero =>
    intro _ fuel _ x
    have hguard : ¬ (-(-1 / (n : ℚ)) / 2 ≤ ((0 : ℕ) : ℚ) / n) := by
      have h2 : -(-1 / (n : ℚ)) / 2 = 1 / (2 * n) := by ring
      have h3 : ((0 : ℕ) : ℚ) / n = 0 := by simp
      have hpos : (0 : ℚ) < 1 / (2 * n) := by positivity
      rw [h2, h3]
      linarith
    cases fuel with
    | zero => simp only [flowLoop, loopIterate, if_neg hguard]
    | succ f => simp only [flowLoop, loopIterate, if_neg hguard]
  | succ k ih =>
    intro hk fuel hf x
    obtain ⟨f, rfl⟩ : ∃ f, fuel = f + 1 := ⟨fuel - 1, by omega⟩
    have hk0 : (0 : ℚ) ≤ (k : ℚ) := Nat.cast_nonneg k
    have hguard : -(-1 / (n : ℚ)) / 2 ≤ ((k + 1 : ℕ) : ℚ) / n := by
      have h2 : -(-1 / (n : ℚ)) / 2 = 1 / (2 * n) := by ring
      rw [h2, div_le_div_iff (by positivity) hn']
      push_cast
      nlinarith
    have hstep : ((k + 1 : ℕ) : ℚ) / n + -1 / n = (k : ℚ) / n := by
      push_cast
      rw [div_add_div_same]
      ring_nf
    simp only [flowLoop, if_pos hguard, loopIterate]
    rw [hstep, ih (Nat.le_of_succ_le hk) f (by omega)
      (eulerStep (-1 / (n : ℚ)) x (v x (((k + 1 : ℕ) : ℚ) / n)))]

/-- Claim C8: the RTC flow-matching loop (`t = 1`, `dt = −1/num_steps`,
Euler update `x ← x + dt·v`, `t ← t + dt`, guard `t ≥ −dt/2`) terminates
after exactly `num_steps` iterations for any fuel bound of at least
`num_steps`; the final actions are truncated to the declared `action_dim`
and sliced to the first `actions_per_chunk` rows. -/
theorem rtcLoop_terminates_and_slices (n : ℕ) (hn : 0 < n)
    (v : List Action → ℚ → List Action) (x : List Action)
    (fuel : ℕ) (hf : n ≤ fuel) (acts : List Action)
    (action_dim actions_per_chunk : ℕ) :
    flowLoop (-1 / (n : ℚ)) v fuel x 1 =
      some (loopIterate (-1 / (n : ℚ)) v n x 1, n) ∧
    (finalizeChunk acts action_dim actions_per_chunk).length =
      min actions_per_chunk acts.length ∧
    ∀ a ∈ finalizeChunk acts action_dim actions_per_chunk,
      a.length ≤ action_dim := by
  have hn' : (0 : ℚ) < n := by exact_mod_cast hn
  have hone : ((n : ℕ) : ℚ) / n = 1 := div_self (ne_of_gt hn')
  refine ⟨?_, ?_, ?_⟩
  · have h := flowLoop_count n hn v n le_rfl fuel hf x
    rwa [hone] at h
  · simp [finalizeChunk]
  · intro a ha
    simp only [finalizeChunk] at ha
    obtain ⟨b, _, rfl⟩ := List.mem_map.mp (List.mem_of_mem_take ha)
    exact le_trans (List.length_take _ _).le (min_le_left _ _)

/-- Closed witness for claim C8's theorem: two denoise steps with a
constant velocity field, then truncation of a 2-row chunk. -/
theorem rtcLoop_terminates_and_slices_witness :
    0 < 2 ∧ 2 ≤ 2 ∧
    (flowLoop (-1 / ((2 : ℕ) : ℚ)) (fun x _ => x) 2 [[1]] 1 =
        some (loopIterate (-1 / ((2 : ℕ) : ℚ)) (fun x _ => x) 2 [[1]] 1, 2) ∧
      (finalizeChunk [[1, 2, 3], [4, 5]] 2 1).length =
        min 1 ([[1, 2, 3], [4, 5]] : List Action).length ∧
      ∀ a ∈ finalizeChunk [[1, 2, 3], [4, 5]] 2 1, a.length ≤ 2) :=
  ⟨by decide, by decide,
    rtcLoop_terminates_and_slices 2 (by decide) (fun x _ => x) [[1]] 2
      (by decide) [[1, 2, 3], [4, 5]] 2 1⟩

theorem rtcCallLoop_exact (n : ℕ) (hn : 0 < n)
    (l : Option (List Action)) (d : ℤ) :
    ∀ k : ℕ, k ≤ n → ∀ fuel : ℕ, k ≤ fuel →
      (rtcCallLoop (-1 / (n : ℚ)) l d fuel ((k : ℚ) / n)).length = k ∧
      ∀ c ∈ rtcCallLoop (-1 / (n : ℚ)) l d fuel ((k : ℚ) / n),
        c.leftoverArg = l ∧ c.delayArg = d := by
  have hn' : (0 : ℚ) < n := by exact_mod_cast hn
  intro k
  induction k with
  | zero =>
    intro _ fuel _
    have hguard : ¬ (-(-1 / (n : ℚ)) / 2 ≤ ((0 : ℕ) : ℚ) / n) := by
      have h2 : -(-1 / (n : ℚ)) / 2 = 1 / (2 * n) := by ring
      have h3 : ((0 : ℕ) : ℚ) / n = 0 := by simp
      have hpos : (0 : ℚ) < 1 / (2 * n) := by positivity
      rw [h2, h3]
      linarith
    cases fuel with
    | zero =>
      refine ⟨rfl, ?_⟩
      intro c hc
      simp [rtcCallLoop] at hc
    | succ f =>
      refine ⟨?_, ?_⟩
      · simp only [rtcCallLoop, if_neg hguard, List.length_nil]
      · intro c hc
        simp only [rtcCallLoop, if_neg hguard] at hc
        exact absurd hc (List.not_mem_nil c)
  | succ k ih =>
    intro hk fuel hf
    obtain ⟨f, rfl⟩ : ∃ f, fuel = f + 1 := ⟨fuel - 1, by omega⟩
    have hk0 : (0 : ℚ) ≤ (k : ℚ) := Nat.cast_nonneg k
    have hguard : -(-1 / (n : ℚ)) / 2 ≤ ((k + 1 : ℕ) : ℚ) / n := by
      have h2 : -(-1 / (n : ℚ)) / 2 = 1 / (2 * n) := by ring
      rw [h2, div_le_div_iff (by positivity) hn']
      push_cast
      nlinarith
    have hstep : ((k + 1 : ℕ) : ℚ) / n + -1 / n = (k : ℚ) / n := by
      push_cast
      rw [div_add_div_same]
      ring_nf
    obtain ⟨ihlen, ihmem⟩ := ih (Nat.le_of_succ_le hk) f (by omega)
    simp only [rtcCallLoop, if_pos hguard, hstep]
    constructor
    · simp [ihlen]
    · intro c hc
      rcases List.mem_cons.mp hc with rfl | hc'
      · exact ⟨rfl, rfl⟩
      · exact ihmem c hc'

/-- Claim C9, amended: in `_get_action_chunk_with_rtc` the leftover is read
once from `rtc_action_queue.get_left_over()` and `inference_delay` is
computed once, at loop entry, as `int((now − start)/environment_dt)`; every
one of the `num_steps` inner `denoise_step` calls receives that same
leftover and that same delay (the delay is not recomputed per step). -/
theorem rtcChunkCalls_constant_args (n : ℕ) (hn : 0 < n)
    (environment_dt : ℚ) (q : ActionQueue) (lastStart : Option ℚ)
    (loopEntryNow : ℚ) :
    (rtcChunkCalls n environment_dt q.get_left_over lastStart
        loopEntryNow).length = n ∧
    ∀ c ∈ rtcChunkCalls n environment_dt q.get_left_over lastStart
        loopEntryNow,
      c.leftoverArg = q.get_left_over ∧
      c.delayArg = entryInferenceDelay environment_dt lastStart loopEntryNow := by
  have hn' : (0 : ℚ) < n := by exact_mod_cast hn
  have hone : ((n : ℕ) : ℚ) / n = 1 := div_self (ne_of_gt hn')
  have h := rtcCallLoop_exact n hn q.get_left_over
    (entryInferenceDelay environment_dt lastStart loopEntryNow) n le_rfl
    (n + 1) (by omega)
  rw [hone] at h
  exact h

/-- Closed witness for claim C9's amended theorem: one denoise step with a
fresh queue. -/
theorem rtcChunkCalls_constant_args_witness :
    0 < 1 ∧
    ((rtcChunkCalls 1 1 ActionQueue.fresh.get_left_over none 0).length = 1 ∧
      ∀ c ∈ rtcChunkCalls 1 1 ActionQueue.fresh.get_left_over none 0,
        c.leftoverArg = ActionQueue.fresh.get_left_over ∧
        c.delayArg = entryInferenceDelay 1 none 0) :=
  ⟨by decide, rtcChunkCalls_constant_args 1 (by decide) 1 ActionQueue.fresh none 0⟩

/-- The call sequence claim C9 describes: the i-th inner step receives an
`inference_delay` freshly recomputed from the wall clock at that step
(`stepNow i` is the elapsed-time reading when step `i` runs). -/
def rtcChunkCallsPerStepDelay (num_steps : ℕ) (environment_dt : ℚ)
    (leftover : Option (List Action)) (lastStart : Option ℚ)
    (stepNow : ℕ → ℚ) : List RTCCall :=
  (List.range num_steps).map fun i =>
    { leftoverArg := leftover
      delayArg := entryInferenceDelay environment_dt lastStart (stepNow i)
      timeArg := 1 - (i : ℚ) / num_steps }

/-- Counterexample to claim C9 as stated: with `num_steps = 1`,
`environment_dt = 1`, inference started at time 0 and the loop entered at
time 0, the code passes delay 0 to the inner step; if that step actually
runs at elapsed time 3, a freshly computed delay there would be 3, so the
delay supplied to an inner step does not reflect the time elapsed when the
step runs. -/
theorem rtc_delay_not_fresh_per_step :
    rtcChunkCalls 1 1 (some [[1]]) (some 0) 0 =
      [{ leftoverArg := some [[1]], delayArg := 0, timeArg := 1 }] ∧
    rtcChunkCallsPerStepDelay 1 1 (some [[1]]) (some 0) (fun _ => 3) =
      [{ leftoverArg := some [[1]], delayArg := 3, timeArg := 1 }] ∧
    rtcChunkCalls 1 1 (some [[1]]) (some 0) 0 ≠
      rtcChunkCallsPerStepDelay 1 1 (some [[1]]) (some 0) (fun _ => 3) := by
  refine ⟨?_, ?_, ?_⟩
  · norm_num [rtcChunkCalls, rtcCallLoop, entryInferenceDelay, pyInt]
  · norm_num [rtcChunkCallsPerStepDelay, entryInferenceDelay, pyInt,
        List.range_succ]
  · intro heq
    have h1 : rtcChunkCalls 1 1 (some [[1]]) (some 0) 0 =
        [{ leftoverArg := some [[1]], delayArg := 0, timeArg := 1 }] := by
      norm_num [rtcChunkCalls, rtcCallLoop, entryInferenceDelay, pyInt]
    have h2 : rtcChunkCallsPerStepDelay 1 1 (some [[1]]) (some 0) (fun _ => 3) =
        [{ leftoverArg := some [[1]], delayArg := 3, timeArg := 1 }] := by
      norm_num [rtcChunkCallsPerStepDelay, entryInferenceDelay, pyInt,
        List.range_succ]
    rw [h1, h2] at heq
    simp at heq

end PolicyServer
